import Mathlib

/-!
# Verification of the p2p-transfer protocol core (src/app.js)

Shallow embedding of the peer-session transfer protocol: heartbeat liveness
checking, chunked file transfer (send and receive paths), transfer timeout
sweeping, and the text/file command surface. Byte blocks are `List Nat`,
JavaScript objects used as string-keyed maps are association lists, and the
sparse `chunks` array of an inbound transfer is modelled with its JavaScript
semantics (element writes past the end grow the array; holes read as
`undefined`, which the `Blob` constructor stringifies to the nine bytes of
the text "undefined").
-/

namespace P2P

/-! ## Configuration constants (CONFIG in src/app.js) -/

def CHUNK_SIZE : Nat := 64 * 1024

def HEARTBEAT_TIMEOUT : Nat := 15000

def TRANSFER_TIMEOUT : Nat := 30000

/-! ## Association-list maps (JavaScript objects keyed by string / index) -/

def assocGet {κ α : Type} [DecidableEq κ] : List (κ × α) → κ → Option α
  | [], _ => none
  | (k, v) :: rest, key => if k = key then some v else assocGet rest key

def assocErase {κ α : Type} [DecidableEq κ] (m : List (κ × α)) (k : κ) :
    List (κ × α) :=
  m.filter fun p => decide (p.1 ≠ k)

def assocSet {κ α : Type} [DecidableEq κ] (m : List (κ × α)) (k : κ) (v : α) :
    List (κ × α) :=
  (k, v) :: assocErase m k

/-! ## JavaScript arrays with holes (`new Array(n)`, indexed element writes) -/

structure JSArray where
  len : Nat
  elems : List (Nat × List Nat)
  deriving DecidableEq

def JSArray.mkEmpty (n : Nat) : JSArray := ⟨n, []⟩

def JSArray.set (a : JSArray) (i : Nat) (v : List Nat) : JSArray :=
  ⟨max a.len (i + 1), (i, v) :: a.elems⟩

def JSArray.get (a : JSArray) (i : Nat) : Option (List Nat) :=
  assocGet a.elems i

/-- The UTF-8 bytes of the string "undefined": what a hole in a `blobParts`
array contributes, since `String(undefined)` is "undefined". -/
def undefinedBytes : List Nat := [117, 110, 100, 101, 102, 105, 110, 101, 100]

def concatAll : List (List Nat) → List Nat
  | [] => []
  | x :: rest => x ++ concatAll rest

/-- `new Blob(a)`: iterate positions `0 .. len-1`, holes stringify. -/
def JSArray.blobBytes (a : JSArray) : List Nat :=
  concatAll ((List.range a.len).map fun i => (a.get i).getD undefinedBytes)

/-! ## Data model -/

/-- One entry of `receivingFiles`: `{meta, chunks, receivedSize, lastUpdate}`
with the meta fields inlined. -/
structure InboundFile where
  name : String
  size : Nat
  fileType : String
  totalChunks : Nat
  chunks : JSArray
  receivedSize : Nat
  lastUpdate : Nat
  deriving DecidableEq

/-- The session-level mutable globals of src/app.js that the protocol core
reads and writes: `connection` (`none` = null, `some b` = a connection whose
`open` flag is `b`), `lastHeartbeat`, `receivingFiles`, and a counter of
teardown (`resetConnection`) events standing in for the disconnect
notification. -/
structure AppState where
  connection : Option Bool
  lastHeartbeat : Nat
  receivingFiles : List (String × InboundFile)
  teardownCount : Nat
  deriving DecidableEq

/-- Wire messages (§6 of the spec, the `data.type` switch in `handleData`). -/
inductive Msg where
  | heartbeat (timestamp : Nat)
  | text (content : String) (timestamp : Nat)
  | fileMeta (fileId name : String) (size : Nat) (fileType : String)
      (totalChunks : Nat)
  | fileChunk (fileId : String) (chunkIndex : Nat) (data : List Nat)
  | fileComplete (fileId : String)
  | unknown
  deriving DecidableEq

/-- Observable events raised to the external UI layer. -/
inductive Ev where
  | progress (fileId : String) (pct : ℚ)
  | delivered (fileId : String) (data : List Nat) (name fileType : String)
  | textReceived (content : String) (timestamp : Nat)
  deriving DecidableEq

/-! ## Receive path -/

/-- `receiveFileMeta`: `receivingFiles[data.fileId] = {meta: data,
chunks: new Array(data.totalChunks), receivedSize: 0, lastUpdate: Date.now()}`. -/
def receiveFileMeta (now : Nat) (st : AppState) (fileId name : String)
    (size : Nat) (fileType : String) (totalChunks : Nat) : AppState :=
  { st with
    receivingFiles := assocSet st.receivingFiles fileId
      { name := name, size := size, fileType := fileType
        totalChunks := totalChunks, chunks := JSArray.mkEmpty totalChunks
        receivedSize := 0, lastUpdate := now } }

/-- The per-chunk update inside `receiveFileChunk`:
`chunks[chunkIndex] = data; receivedSize += data.byteLength;
lastUpdate = Date.now()`. -/
def chunkApply (now : Nat) (data : List Nat) (fd : InboundFile) (i : Nat) :
    InboundFile :=
  { fd with
    chunks := fd.chunks.set i data
    receivedSize := fd.receivedSize + data.length
    lastUpdate := now }

/-- `(fileData.receivedSize / fileData.meta.size) * 100`. -/
def ratio (fd : InboundFile) : ℚ :=
  ((fd.receivedSize : ℚ) / (fd.size : ℚ)) * 100

/-- `receiveFileChunk`: unknown fileId is a silent no-op; otherwise store the
chunk, bump `receivedSize` and `lastUpdate`, and report progress. -/
def receiveFileChunk (now : Nat) (st : AppState) (fileId : String) (i : Nat)
    (data : List Nat) : AppState × List Ev :=
  match assocGet st.receivingFiles fileId with
  | none => (st, [])
  | some fd =>
      let fd' := chunkApply now data fd i
      ({ st with receivingFiles := assocSet st.receivingFiles fileId fd' },
        [Ev.progress fileId (ratio fd')])

/-- `receiveFileComplete`: unknown fileId is a silent no-op; otherwise build
`new Blob(fileData.chunks)`, hand the artifact to the external layer, and
`delete receivingFiles[data.fileId]`. -/
def receiveFileComplete (st : AppState) (fileId : String) : AppState × List Ev :=
  match assocGet st.receivingFiles fileId with
  | none => (st, [])
  | some fd =>
      ({ st with receivingFiles := assocErase st.receivingFiles fileId },
        [Ev.delivered fileId fd.chunks.blobBytes fd.name fd.fileType])

/-- `handleData`: refresh `lastHeartbeat` on every inbound message of any
type, then dispatch on `data.type`; unknown kinds are ignored. -/
def handleData (now : Nat) (st : AppState) (m : Msg) : AppState × List Ev :=
  match m with
  | Msg.heartbeat _ => ({ st with lastHeartbeat := now }, [])
  | Msg.text c ts => ({ st with lastHeartbeat := now }, [Ev.textReceived c ts])
  | Msg.fileMeta id n s ft tc =>
      (receiveFileMeta now { st with lastHeartbeat := now } id n s ft tc, [])
  | Msg.fileChunk id i d =>
      receiveFileChunk now { st with lastHeartbeat := now } id i d
  | Msg.fileComplete id =>
      receiveFileComplete { st with lastHeartbeat := now } id
  | Msg.unknown => ({ st with lastHeartbeat := now }, [])

/-- Deliver a sequence of timestamped inbound messages to `handleData`,
collecting the raised events. -/
def runMsgs : AppState → List (Nat × Msg) → AppState × List Ev
  | st, [] => (st, [])
  | st, (t, m) :: rest =>
      let r1 := handleData t st m
      let r2 := runMsgs r1.1 rest
      (r2.1, r1.2 ++ r2.2)

/-! ## Timeout sweep and heartbeat liveness check -/

/-- The per-entry condition of `checkTransferTimeout`:
`file.lastUpdate && now - file.lastUpdate > CONFIG.TRANSFER_TIMEOUT`. -/
def timedOut (now : Nat) (fd : InboundFile) : Bool :=
  decide (fd.lastUpdate ≠ 0) && decide (now - fd.lastUpdate > TRANSFER_TIMEOUT)

/-- `checkTransferTimeout`: delete every receiving entry whose last activity
is older than the transfer timeout. -/
def checkTransferTimeout (now : Nat) (st : AppState) : AppState :=
  { st with receivingFiles := st.receivingFiles.filter fun p => !timedOut now p.2 }

/-- `resetConnection`: clear the connection and all transfer state and notify
(the UI reset and timer cancellation are collapsed into `teardownCount`). -/
def resetConnection (st : AppState) : AppState :=
  { connection := none
    lastHeartbeat := st.lastHeartbeat
    receivingFiles := []
    teardownCount := st.teardownCount + 1 }

/-- The heartbeat liveness check tick: tear the session down only when the
silence window is exceeded AND the connection object itself reports closed. -/
def heartbeatCheck (now : Nat) (st : AppState) : AppState :=
  if now - st.lastHeartbeat > HEARTBEAT_TIMEOUT then
    match st.connection with
    | some false => resetConnection st
    | _ => st
  else st

/-! ## Send path -/

def numChunks (size cs : Nat) : Nat := (size + cs - 1) / cs

/-- `file.slice(i * CHUNK_SIZE, min((i+1) * CHUNK_SIZE, size))`. -/
def chunkData (cs : Nat) (bytes : List Nat) (i : Nat) : List Nat :=
  (bytes.drop (i * cs)).take cs

/-- The message sequence `sendFile` hands to `connection.send`, chunk size as
a parameter: one file-meta, the chunks in increasing index order, one
file-complete. -/
def sendFileMsgsWith (cs : Nat) (fileId name fileType : String)
    (bytes : List Nat) : List Msg :=
  [Msg.fileMeta fileId name bytes.length fileType (numChunks bytes.length cs)]
    ++ (List.range (numChunks bytes.length cs)).map
        (fun i => Msg.fileChunk fileId i (chunkData cs bytes i))
    ++ [Msg.fileComplete fileId]

/-- `sendFile` at the configured chunk size. -/
def sendFileMsgs (fileId name fileType : String) (bytes : List Nat) :
    List Msg :=
  sendFileMsgsWith CHUNK_SIZE fileId name fileType bytes

/-- The outbound progress values reported during `sendFile`:
`(sentChunks / totalChunks) * 100` after each chunk. -/
def outboundProgressList (n : Nat) : List ℚ :=
  (List.range n).map fun i => (((i + 1 : Nat) : ℚ) / (n : ℚ)) * 100

/-! ## Command surface -/

inductive TextSendResult where
  | emptyContent
  | notConnected
  | sent
  deriving DecidableEq

/-- JavaScript `String.prototype.trim`: strip leading and trailing
whitespace. -/
def jsTrim (s : String) : String :=
  ⟨((s.data.dropWhile Char.isWhitespace).reverse.dropWhile
      Char.isWhitespace).reverse⟩

/-- `sendText`: trim, reject empty input, reject when no open connection,
otherwise send one text message carrying the trimmed content and a
timestamp. -/
def sendText (connection : Option Bool) (input : String) (now : Nat) :
    TextSendResult × List Msg :=
  if jsTrim input = "" then (TextSendResult.emptyContent, [])
  else if connection = some true then
    (TextSendResult.sent, [Msg.text (jsTrim input) now])
  else (TextSendResult.notConnected, [])

/-- One file handed to `handleFiles` (the generated fileId inlined). -/
structure FileDesc where
  fileId : String
  name : String
  fileType : String
  bytes : List Nat
  deriving DecidableEq

inductive FilesSendResult where
  | notConnected
  | ok
  deriving DecidableEq

/-- `handleFiles`: reject when no open connection (no transfer created, no
message emitted); otherwise run `sendFile` for each file. Returns the
outcome, the outbound transfer entries created, and the emitted messages. -/
def handleFiles (connection : Option Bool) (files : List FileDesc) :
    FilesSendResult × List String × List Msg :=
  if connection = some true then
    (FilesSendResult.ok, files.map (fun f => f.fileId),
      (files.map fun f => sendFileMsgs f.fileId f.name f.fileType f.bytes).foldr
        (· ++ ·) [])
  else (FilesSendResult.notConnected, [], [])

/-! ## Event projections -/

def progressFor (id : String) (evs : List Ev) : List ℚ :=
  evs.filterMap fun e =>
    match e with
    | Ev.progress i p => if i = id then some p else none
    | _ => none

def deliveredFor (id : String) (evs : List Ev) : List Ev :=
  evs.filter fun e =>
    match e with
    | Ev.delivered i _ _ _ => i == id
    | _ => false

def isMetaFor (id : String) : Msg → Bool
  | Msg.fileMeta i _ _ _ _ => i == id
  | _ => false

/-! ## Derived forms used to state the run lemmas -/

/-- Fold the chunk update over a list of indices. -/
def applyChunks (now : Nat) (f : Nat → List Nat) (fd : InboundFile)
    (idxs : List Nat) : InboundFile :=
  idxs.foldl (fun a i => chunkApply now (f i) a i) fd

/-- The progress events raised while a run of chunk messages is processed. -/
def chunkRunEvs (id : String) (now : Nat) (f : Nat → List Nat) :
    InboundFile → List Nat → List Ev
  | _, [] => []
  | fd, i :: rest =>
      Ev.progress id (ratio (chunkApply now (f i) fd i)) ::
        chunkRunEvs id now f (chunkApply now (f i) fd i) rest

/-! ## Concrete states for witnesses and counterexamples -/

def st0 : AppState :=
  { connection := some true, lastHeartbeat := 0, receivingFiles := []
    teardownCount := 0 }

def d5 : List Nat := [9, 9, 9, 9, 9]

/-- `st0` after a file-meta for "x" (size 10, 2 chunks). -/
def stMeta : AppState := receiveFileMeta 1 st0 "x" "a" 10 "t" 2

/-- The entry `stMeta` holds for "x". -/
def fdMeta : InboundFile :=
  { name := "a", size := 10, fileType := "t", totalChunks := 2
    chunks := JSArray.mkEmpty 2, receivedSize := 0, lastUpdate := 1 }

/-- An inbound transfer whose completion arrives while slot 1 of 2 is still
unset (only chunk 0, five bytes, was received). -/
def fdIncomplete : InboundFile :=
  { name := "a", size := 10, fileType := "t", totalChunks := 2
    chunks := (JSArray.mkEmpty 2).set 0 [1, 2, 3, 4, 5], receivedSize := 5
    lastUpdate := 1 }

def stIncomplete : AppState :=
  { connection := some true, lastHeartbeat := 0
    receivingFiles := [("x", fdIncomplete)], teardownCount := 0 }

/-! ## Association-map lemmas -/

theorem assocGet_erase_self {κ α : Type} [DecidableEq κ]
    (m : List (κ × α)) (k : κ) : assocGet (assocErase m k) k = none := by
  induction m with
  | nil => rfl
  | cons p rest ih =>
      by_cases h : p.1 = k
      · simpa [assocErase, h] using ih
      · simpa [assocErase, assocGet, h] using ih

theorem assocGet_erase_ne {κ α : Type} [DecidableEq κ]
    (m : List (κ × α)) (k k' : κ) (h : k' ≠ k) :
    assocGet (assocErase m k) k' = assocGet m k' := by
  induction m with
  | nil => rfl
  | cons p rest ih =>
      by_cases hp : p.1 = k
      · have hpk' : ¬p.1 = k' := by
          rw [hp]; exact fun hh => h hh.symm
        have hfilter : assocErase (p :: rest) k = assocErase rest k := by
          simp [assocErase, List.filter_cons, hp]
        rw [hfilter, ih]
        simp [assocGet, hpk']
      · have hfilter : assocErase (p :: rest) k = p :: assocErase rest k := by
          simp [assocErase, List.filter_cons, hp]
        rw [hfilter]
        by_cases hk' : p.1 = k'
        · simp [assocGet, hk']
        · simp only [assocGet, hk', if_false]
          exact ih

theorem assocGet_set_self {κ α : Type} [DecidableEq κ]
    (m : List (κ × α)) (k : κ) (v : α) : assocGet (assocSet m k v) k = some v := by
  simp [assocSet, assocGet]

theorem assocGet_set_ne {κ α : Type} [DecidableEq κ]
    (m : List (κ × α)) (k k' : κ) (v : α) (h : k' ≠ k) :
    assocGet (assocSet m k v) k' = assocGet m k' := by
  have hkk' : ¬k = k' := fun hh => h hh.symm
  simp only [assocSet, assocGet, hkk', if_false]
  exact assocGet_erase_ne m k k' h

theorem assocGet_none_of_not_mem_keys {κ α : Type} [DecidableEq κ]
    (m : List (κ × α)) (k : κ) (h : k ∉ m.map Prod.fst) :
    assocGet m k = none := by
  induction m with
  | nil => rfl
  | cons p rest ih =>
      simp only [List.map_cons, List.mem_cons, not_or] at h
      have h1 : ¬p.1 = k := fun hh => h.1 hh.symm
      simpa [assocGet, h1] using ih h.2

theorem assocGet_filter_none {κ α : Type} [DecidableEq κ]
    (m : List (κ × α)) (k : κ) (q : κ × α → Bool)
    (h : assocGet m k = none) : assocGet (m.filter q) k = none := by
  induction m with
  | nil => rfl
  | cons p rest ih =>
      by_cases hp : p.1 = k
      · simp [assocGet, hp] at h
      · simp only [assocGet, hp, if_false] at h
        by_cases hq : q p
        · simpa [List.filter_cons, hq, assocGet, hp] using ih h
        · simpa [List.filter_cons, hq] using ih h

/-! ## JavaScript array lemmas -/

theorem jsGet_set_self (a : JSArray) (i : Nat) (v : List Nat) :
    (a.set i v).get i = some v := by
  simp [JSArray.set, JSArray.get, assocGet]

theorem jsGet_set_ne (a : JSArray) (i j : Nat) (v : List Nat) (h : j ≠ i) :
    (a.set i v).get j = a.get j := by
  have hij : ¬i = j := fun hh => h hh.symm
  simp [JSArray.set, JSArray.get, assocGet, hij]

theorem jsGet_mkEmpty (n i : Nat) : (JSArray.mkEmpty n).get i = none := rfl

theorem foldl_set_get (f : Nat → List Nat) (idxs : List Nat) (a : JSArray)
    (j : Nat) :
    (idxs.foldl (fun c i => c.set i (f i)) a).get j =
      if j ∈ idxs then some (f j) else a.get j := by
  induction idxs generalizing a with
  | nil => simp
  | cons i rest ih =>
      simp only [List.foldl_cons, List.mem_cons]
      rw [ih]
      by_cases hr : j ∈ rest
      · simp [hr]
      · by_cases hj : j = i
        · subst hj
          simp [hr, jsGet_set_self]
        · simp [hr, hj, jsGet_set_ne a i j (f i) hj]

theorem foldl_set_len (f : Nat → List Nat) (idxs : List Nat) (a : JSArray)
    (h : ∀ i ∈ idxs, i < a.len) :
    (idxs.foldl (fun c i => c.set i (f i)) a).len = a.len := by
  induction idxs generalizing a with
  | nil => rfl
  | cons i rest ih =>
      simp only [List.foldl_cons]
      have hi : i < a.len := h i (List.mem_cons_self i rest)
      have hlen : (a.set i (f i)).len = a.len := by
        simp [JSArray.set]
        omega
      rw [ih (a.set i (f i)) (fun j hj => by rw [hlen]; exact h j (List.mem_cons_of_mem i hj))]
      exact hlen

/-! ## Chunk arithmetic -/

theorem chunkData_length (cs : Nat) (bytes : List Nat) (i : Nat) :
    (chunkData cs bytes i).length = min cs (bytes.length - i * cs) := by
  simp [chunkData]

theorem le_numChunks_mul (len cs : Nat) (h : 1 ≤ cs) :
    len ≤ numChunks len cs * cs := by
  have hd := Nat.div_add_mod (len + cs - 1) cs
  have hm : (len + cs - 1) % cs < cs := Nat.mod_lt _ h
  have hc : numChunks len cs * cs = cs * ((len + cs - 1) / cs) := by
    rw [Nat.mul_comm]; rfl
  rw [hc]
  omega

theorem mul_lt_of_lt_numChunks (len cs k : Nat) (h : 1 ≤ cs)
    (hk : k < numChunks len cs) : k * cs < len := by
  have h1 : k + 1 ≤ (len + cs - 1) / cs := hk
  have h2 : (k + 1) * cs ≤ len + cs - 1 :=
    (Nat.le_div_iff_mul_le (by omega)).mp h1
  have h3 : (k + 1) * cs = k * cs + cs := by ring
  omega

theorem concat_chunks_of_le (cs : Nat) :
    ∀ (n : Nat) (bytes : List Nat), bytes.length ≤ n * cs →
      concatAll ((List.range n).map (chunkData cs bytes)) = bytes := by
  intro n
  induction n with
  | zero =>
      intro bytes h
      simp at h
      subst h
      simp [concatAll]
  | succ n ih =>
      intro bytes h
      rw [List.range_succ_eq_map]
      simp only [List.map_cons, List.map_map]
      have hmap : List.map (chunkData cs bytes ∘ Nat.succ) (List.range n) =
          List.map (chunkData cs (bytes.drop cs)) (List.range n) := by
        apply List.map_congr_left
        intro i _
        show chunkData cs bytes (i + 1) = chunkData cs (bytes.drop cs) i
        simp only [chunkData, List.drop_drop]
        congr 2
        ring
      rw [hmap]
      have hlen : (bytes.drop cs).length ≤ n * cs := by
        simp only [List.length_drop]
        have hmul : (n + 1) * cs = n * cs + cs := by ring
        omega
      have h0 : chunkData cs bytes 0 = bytes.take cs := by simp [chunkData]
      calc concatAll (chunkData cs bytes 0 ::
              List.map (chunkData cs (bytes.drop cs)) (List.range n))
          = chunkData cs bytes 0 ++
              concatAll (List.map (chunkData cs (bytes.drop cs)) (List.range n)) :=
            rfl
        _ = bytes.take cs ++ bytes.drop cs := by
            rw [h0, ih (bytes.drop cs) hlen]
        _ = bytes := List.take_append_drop cs bytes

theorem concat_chunks (cs : Nat) (h : 1 ≤ cs) (bytes : List Nat) :
    concatAll ((List.range (numChunks bytes.length cs)).map (chunkData cs bytes))
      = bytes :=
  concat_chunks_of_le cs _ bytes (le_numChunks_mul bytes.length cs h)

/-! ## Run lemmas -/

theorem runMsgs_append (l1 l2 : List (Nat × Msg)) (st : AppState) :
    runMsgs st (l1 ++ l2) =
      ((runMsgs (runMsgs st l1).1 l2).1,
        (runMsgs st l1).2 ++ (runMsgs (runMsgs st l1).1 l2).2) := by
  induction l1 generalizing st with
  | nil => simp [runMsgs]
  | cons p rest ih =>
      obtain ⟨t, m⟩ := p
      simp [runMsgs, ih]

theorem progressFor_append (id : String) (a b : List Ev) :
    progressFor id (a ++ b) = progressFor id a ++ progressFor id b := by
  simp [progressFor]

theorem deliveredFor_append (id : String) (a b : List Ev) :
    deliveredFor id (a ++ b) = deliveredFor id a ++ deliveredFor id b := by
  simp [deliveredFor]

/-- A message that is not a file-meta for `id` cannot create an entry for
`id`, report progress on it, or deliver it. -/
theorem step_absent (id : String) (t : Nat) (st : AppState) (m : Msg)
    (h : assocGet st.receivingFiles id = none) (hm : isMetaFor id m = false) :
    assocGet (handleData t st m).1.receivingFiles id = none ∧
      progressFor id (handleData t st m).2 = [] ∧
      deliveredFor id (handleData t st m).2 = [] := by
  cases m with
  | heartbeat ts =>
      exact ⟨h, by simp [handleData, progressFor], by simp [handleData, deliveredFor]⟩
  | text c ts =>
      exact ⟨h, by simp [handleData, progressFor], by simp [handleData, deliveredFor]⟩
  | unknown =>
      exact ⟨h, by simp [handleData, progressFor], by simp [handleData, deliveredFor]⟩
  | fileMeta id' n s ft tc =>
      have hne : id ≠ id' := by
        intro hh
        subst hh
        simp [isMetaFor] at hm
      refine ⟨?_, by simp [handleData, progressFor], by simp [handleData, deliveredFor]⟩
      simpa [handleData, receiveFileMeta, assocGet_set_ne _ _ _ _ hne] using h
  | fileChunk id' i d =>
      by_cases hid : id' = id
      · subst hid
        simp only [handleData, receiveFileChunk]
        rw [show assocGet ({ st with lastHeartbeat := t } : AppState).receivingFiles id' = none from h]
        exact ⟨h, rfl, rfl⟩
      · have hne : id ≠ id' := fun hh => hid hh.symm
        simp only [handleData, receiveFileChunk]
        cases hg : assocGet ({ st with lastHeartbeat := t } : AppState).receivingFiles id' with
        | none => exact ⟨h, rfl, rfl⟩
        | some fd =>
            refine ⟨?_, by simp [progressFor, hid], by simp [deliveredFor]⟩
            simpa [assocGet_set_ne _ _ _ _ hne] using h
  | fileComplete id' =>
      by_cases hid : id' = id
      · subst hid
        simp only [handleData, receiveFileComplete]
        rw [show assocGet ({ st with lastHeartbeat := t } : AppState).receivingFiles id' = none from h]
        exact ⟨h, rfl, rfl⟩
      · have hne : id ≠ id' := fun hh => hid hh.symm
        simp only [handleData, receiveFileComplete]
        cases hg : assocGet ({ st with lastHeartbeat := t } : AppState).receivingFiles id' with
        | none => exact ⟨h, rfl, rfl⟩
        | some fd =>
            refine ⟨?_, by simp [progressFor], by simp [deliveredFor, hid]⟩
            simpa [assocGet_erase_ne _ _ _ hne] using h

/-- Once `id` is absent from `receivingFiles`, any run of messages containing
no file-meta for `id` keeps it absent, reports no progress for it, and never
delivers it. -/
theorem run_absent (id : String) (msgs : List (Nat × Msg)) :
    ∀ st : AppState, assocGet st.receivingFiles id = none →
      (∀ p ∈ msgs, isMetaFor id p.2 = false) →
      assocGet (runMsgs st msgs).1.receivingFiles id = none ∧
        progressFor id (runMsgs st msgs).2 = [] ∧
        deliveredFor id (runMsgs st msgs).2 = [] := by
  induction msgs with
  | nil =>
      intro st h _
      exact ⟨h, rfl, rfl⟩
  | cons p rest ih =>
      intro st h hmeta
      obtain ⟨t, m⟩ := p
      have hstep := step_absent id t st m h (hmeta (t, m) (List.mem_cons_self _ _))
      have hrest := ih (handleData t st m).1 hstep.1
        (fun q hq => hmeta q (List.mem_cons_of_mem _ hq))
      simp only [runMsgs]
      refine ⟨hrest.1, ?_, ?_⟩
      · rw [progressFor_append, hstep.2.1, hrest.2.1]; rfl
      · rw [deliveredFor_append, hstep.2.2, hrest.2.2]; rfl

theorem applyChunks_fields (now : Nat) (f : Nat → List Nat) :
    ∀ (idxs : List Nat) (fd : InboundFile),
      (applyChunks now f fd idxs).name = fd.name ∧
        (applyChunks now f fd idxs).size = fd.size ∧
        (applyChunks now f fd idxs).fileType = fd.fileType ∧
        (applyChunks now f fd idxs).totalChunks = fd.totalChunks := by
  intro idxs
  induction idxs with
  | nil => intro fd; exact ⟨rfl, rfl, rfl, rfl⟩
  | cons i rest ih =>
      intro fd
      simpa [applyChunks, chunkApply] using ih (chunkApply now (f i) fd i)

theorem applyChunks_chunks (now : Nat) (f : Nat → List Nat) :
    ∀ (idxs : List Nat) (fd : InboundFile),
      (applyChunks now f fd idxs).chunks =
        idxs.foldl (fun c i => c.set i (f i)) fd.chunks := by
  intro idxs
  induction idxs with
  | nil => intro fd; rfl
  | cons i rest ih =>
      intro fd
      simpa [applyChunks, chunkApply] using ih (chunkApply now (f i) fd i)

/-- Processing a run of file-chunk messages for a present entry: the final
entry is the fold of the chunk update, and the raised events are exactly the
per-chunk progress reports. -/
theorem run_chunks (id : String) (now : Nat) (f : Nat → List Nat) :
    ∀ (idxs : List Nat) (st : AppState) (fd : InboundFile),
      assocGet st.receivingFiles id = some fd →
      assocGet (runMsgs st
            (idxs.map fun i => (now, Msg.fileChunk id i (f i)))).1.receivingFiles
          id = some (applyChunks now f fd idxs) ∧
        (runMsgs st (idxs.map fun i => (now, Msg.fileChunk id i (f i)))).2 =
          chunkRunEvs id now f fd idxs := by
  intro idxs
  induction idxs with
  | nil => intro st fd h; exact ⟨h, rfl⟩
  | cons i rest ih =>
      intro st fd h
      have hstep : handleData now st (Msg.fileChunk id i (f i)) =
          ({ st with
              lastHeartbeat := now,
              receivingFiles :=
                assocSet st.receivingFiles id (chunkApply now (f i) fd i) },
            [Ev.progress id (ratio (chunkApply now (f i) fd i))]) := by
        simp only [handleData, receiveFileChunk, h]
      have hget : assocGet
          (assocSet st.receivingFiles id (chunkApply now (f i) fd i)) id =
            some (chunkApply now (f i) fd i) :=
        assocGet_set_self _ _ _
      have hrest := ih
        ({ st with
            lastHeartbeat := now,
            receivingFiles :=
              assocSet st.receivingFiles id (chunkApply now (f i) fd i) })
        (chunkApply now (f i) fd i) hget
      simp only [List.map_cons, runMsgs, hstep]
      exact ⟨hrest.1, by rw [hrest.2]; rfl⟩

theorem deliveredFor_chunkRunEvs (j id : String) (now : Nat)
    (f : Nat → List Nat) :
    ∀ (idxs : List Nat) (fd : InboundFile),
      deliveredFor j (chunkRunEvs id now f fd idxs) = [] := by
  intro idxs
  induction idxs with
  | nil => intro fd; rfl
  | cons i rest ih =>
      intro fd
      simpa [chunkRunEvs, deliveredFor] using ih (chunkApply now (f i) fd i)

/-- The exact progress values along the honest chunk sequence: after the
chunks with indices `k, k+1, …, k+m-1`, progress is
`min((i+1)·cs, size) / size · 100` at each step. -/
theorem chunkRunEvs_range' (cs : Nat) (bytes : List Nat) (id : String)
    (now : Nat) :
    ∀ (m k : Nat) (fd : InboundFile),
      fd.size = bytes.length →
      fd.receivedSize = min (k * cs) bytes.length →
      chunkRunEvs id now (chunkData cs bytes) fd (List.range' k m) =
        (List.range' k m).map fun i =>
          Ev.progress id
            (((min ((i + 1) * cs) bytes.length : Nat) : ℚ) /
              (bytes.length : ℚ) * 100) := by
  intro m
  induction m with
  | zero => intro k fd _ _; rfl
  | succ m ih =>
      intro k fd hsize hrecv
      rw [List.range'_succ]
      have hlen : (chunkData cs bytes k).length =
          min cs (bytes.length - k * cs) := chunkData_length cs bytes k
      have hrecv' : (chunkApply now (chunkData cs bytes k) fd k).receivedSize =
          min ((k + 1) * cs) bytes.length := by
        simp only [chunkApply, hlen, hrecv]
        have hmul : (k + 1) * cs = k * cs + cs := by ring
        omega
      have hsize' : (chunkApply now (chunkData cs bytes k) fd k).size =
          bytes.length := hsize
      have hratio : ratio (chunkApply now (chunkData cs bytes k) fd k) =
          ((min ((k + 1) * cs) bytes.length : Nat) : ℚ) /
            (bytes.length : ℚ) * 100 := by
        rw [ratio, hrecv', hsize']
      simp only [chunkRunEvs, List.map_cons, hratio]
      rw [ih (k + 1) _ hsize' hrecv']

/-! ## Progress monotonicity -/

theorem ratio_chunkApply_le (now : Nat) (d : List Nat) (fd : InboundFile)
    (i : Nat) : ratio fd ≤ ratio (chunkApply now d fd i) := by
  by_cases hs : (fd.size : ℚ) = 0
  · simp [ratio, chunkApply, hs]
  · have hc : (0 : ℚ) < (fd.size : ℚ) :=
      lt_of_le_of_ne (Nat.cast_nonneg _) (Ne.symm hs)
    have h1 : ((fd.receivedSize : Nat) : ℚ) ≤
        ((fd.receivedSize + d.length : Nat) : ℚ) :=
      Nat.cast_le.mpr (Nat.le_add_right _ _)
    have h2 : (fd.receivedSize : ℚ) / (fd.size : ℚ) ≤
        ((fd.receivedSize + d.length : Nat) : ℚ) / (fd.size : ℚ) :=
      div_le_div_of_nonneg_right h1 hc.le |>.trans_eq rfl
    have h100 : (0 : ℚ) ≤ 100 := by norm_num
    calc ratio fd = (fd.receivedSize : ℚ) / (fd.size : ℚ) * 100 := rfl
      _ ≤ ((fd.receivedSize + d.length : Nat) : ℚ) / (fd.size : ℚ) * 100 :=
          mul_le_mul_of_nonneg_right h2 h100
      _ = ratio (chunkApply now d fd i) := by
          simp [ratio, chunkApply]

theorem chain'_le_cons_of_le {a b : ℚ} {l : List ℚ} (hba : b ≤ a)
    (h : List.Chain' (· ≤ ·) (a :: l)) : List.Chain' (· ≤ ·) (b :: l) := by
  cases l with
  | nil => simp
  | cons c l' =>
      rw [List.chain'_cons] at h ⊢
      exact ⟨le_trans hba h.1, h.2⟩

/-- One dispatch step seen from a present entry: the entry either stays (with
a non-decreasing ratio, reporting at most its new ratio) or is removed with
no progress report. -/
theorem step_present (id : String) (t : Nat) (st : AppState) (m : Msg)
    (fd : InboundFile) (h : assocGet st.receivingFiles id = some fd)
    (hm : isMetaFor id m = false) :
    (∃ fd', assocGet (handleData t st m).1.receivingFiles id = some fd' ∧
        ratio fd ≤ ratio fd' ∧
        (progressFor id (handleData t st m).2 = [] ∨
          progressFor id (handleData t st m).2 = [ratio fd'])) ∨
      (assocGet (handleData t st m).1.receivingFiles id = none ∧
        progressFor id (handleData t st m).2 = []) := by
  cases m with
  | heartbeat ts => exact Or.inl ⟨fd, h, le_refl _, Or.inl rfl⟩
  | text c ts => exact Or.inl ⟨fd, h, le_refl _, Or.inl (by simp [handleData, progressFor])⟩
  | unknown => exact Or.inl ⟨fd, h, le_refl _, Or.inl rfl⟩
  | fileMeta id' n s ft tc =>
      have hne : id ≠ id' := by
        intro hh
        subst hh
        simp [isMetaFor] at hm
      refine Or.inl ⟨fd, ?_, le_refl _, Or.inl rfl⟩
      simpa [handleData, receiveFileMeta, assocGet_set_ne _ _ _ _ hne] using h
  | fileChunk id' i d =>
      by_cases hid : id' = id
      · subst hid
        refine Or.inl ⟨chunkApply t d fd i, ?_, ratio_chunkApply_le t d fd i, Or.inr ?_⟩
        · simp only [handleData, receiveFileChunk, h]
          exact assocGet_set_self _ _ _
        · simp only [handleData, receiveFileChunk, h]
          simp [progressFor]
      · have hne : id ≠ id' := fun hh => hid hh.symm
        simp only [handleData, receiveFileChunk]
        cases hg : assocGet ({ st with lastHeartbeat := t } : AppState).receivingFiles id' with
        | none => exact Or.inl ⟨fd, h, le_refl _, Or.inl rfl⟩
        | some fd2 =>
            refine Or.inl ⟨fd, ?_, le_refl _, Or.inl (by simp [progressFor, hid])⟩
            simpa [assocGet_set_ne _ _ _ _ hne] using h
  | fileComplete id' =>
      by_cases hid : id' = id
      · subst hid
        simp only [handleData, receiveFileComplete, h]
        exact Or.inr ⟨assocGet_erase_self _ _, by simp [progressFor]⟩
      · have hne : id ≠ id' := fun hh => hid hh.symm
        simp only [handleData, receiveFileComplete]
        cases hg : assocGet ({ st with lastHeartbeat := t } : AppState).receivingFiles id' with
        | none => exact Or.inl ⟨fd, h, le_refl _, Or.inl rfl⟩
        | some fd2 =>
            refine Or.inl ⟨fd, ?_, le_refl _, Or.inl (by simp [progressFor])⟩
            simpa [assocGet_erase_ne _ _ _ hne] using h

/-- Per-transfer progress is non-decreasing along any run without a fresh
file-meta for the transfer, starting from its current ratio. -/
theorem run_mono (id : String) (msgs : List (Nat × Msg)) :
    ∀ (st : AppState) (fd : InboundFile),
      assocGet st.receivingFiles id = some fd →
      (∀ p ∈ msgs, isMetaFor id p.2 = false) →
      List.Chain' (· ≤ ·) (ratio fd :: progressFor id (runMsgs st msgs).2) := by
  induction msgs with
  | nil => intro st fd _ _; simp [runMsgs, progressFor]
  | cons p rest ih =>
      intro st fd h hmeta
      obtain ⟨t, m⟩ := p
      have hrest : ∀ q ∈ rest, isMetaFor id q.2 = false :=
        fun q hq => hmeta q (List.mem_cons_of_mem _ hq)
      have hstep := step_present id t st m fd h (hmeta (t, m) (List.mem_cons_self _ _))
      simp only [runMsgs, progressFor_append]
      rcases hstep with ⟨fd', hget', hle, hevs⟩ | ⟨hnone, hevs⟩
      · rcases hevs with hevs | hevs
        · rw [hevs]
          exact chain'_le_cons_of_le hle (ih _ _ hget' hrest)
        · rw [hevs]
          rw [List.cons_append, List.nil_append]
          exact List.chain'_cons.mpr ⟨hle, ih _ _ hget' hrest⟩
      · rw [hevs, (run_absent id rest _ hnone hrest).2.1]
        simp

/-! ## Single-handler unfolding lemmas -/

theorem receiveFileChunk_absent (t : Nat) (st : AppState) (id : String)
    (i : Nat) (d : List Nat) (h : assocGet st.receivingFiles id = none) :
    receiveFileChunk t st id i d = (st, []) := by
  simp only [receiveFileChunk, h]

theorem receiveFileComplete_absent (st : AppState) (id : String)
    (h : assocGet st.receivingFiles id = none) :
    receiveFileComplete st id = (st, []) := by
  simp only [receiveFileComplete, h]

theorem receiveFileChunk_present (t : Nat) (st : AppState) (id : String)
    (i : Nat) (d : List Nat) (fd : InboundFile)
    (h : assocGet st.receivingFiles id = some fd) :
    receiveFileChunk t st id i d =
      ({ st with
          receivingFiles := assocSet st.receivingFiles id (chunkApply t d fd i) },
        [Ev.progress id (ratio (chunkApply t d fd i))]) := by
  simp only [receiveFileChunk, h]

theorem receiveFileComplete_present (st : AppState) (id : String)
    (fd : InboundFile) (h : assocGet st.receivingFiles id = some fd) :
    receiveFileComplete st id =
      ({ st with receivingFiles := assocErase st.receivingFiles id },
        [Ev.delivered id fd.chunks.blobBytes fd.name fd.fileType]) := by
  simp only [receiveFileComplete, h]

/-! ## Timeout sweep helpers -/

theorem assocGet_filter_out {κ α : Type} [DecidableEq κ]
    (m : List (κ × α)) (id : κ) (v : α) (q : α → Bool)
    (hnodup : (m.map Prod.fst).Nodup) (h : assocGet m id = some v)
    (hq : q v = true) :
    assocGet (m.filter fun p => !q p.2) id = none := by
  induction m with
  | nil => simp [assocGet] at h
  | cons p rest ih =>
      rw [List.map_cons, List.nodup_cons] at hnodup
      by_cases hk : p.1 = id
      · have hv : p.2 = v := by
          simp only [assocGet, hk, if_true] at h
          exact Option.some_injective _ h
        have hrestnone : assocGet rest id = none := by
          apply assocGet_none_of_not_mem_keys
          rw [← hk]
          exact hnodup.1
        rw [List.filter_cons]
        have hqf : (!q p.2) = false := by rw [hv, hq]; rfl
        rw [hqf]
        simp only [Bool.false_eq_true, if_false]
        exact assocGet_filter_none rest id _ hrestnone
      · simp only [assocGet, hk, if_false] at h
        rw [List.filter_cons]
        by_cases hqp : (!q p.2) = true
        · rw [hqp]
          simp only [if_true]
          simp only [assocGet, hk, if_false]
          exact ih hnodup.2 h
        · rw [Bool.not_eq_true] at hqp
          rw [hqp]
          simp only [Bool.false_eq_true, if_false]
          exact ih hnodup.2 h

/-! ## Claim theorems -/

/-- C5: an inbound transfer whose elapsed time since last chunk activity
exceeds the transfer timeout when the periodic sweep runs is removed from
active tracking, and subsequent file-chunk or file-complete messages with
its identifier are silent no-ops. -/
theorem c5_transfer_timeout (st : AppState) (id : String) (fd : InboundFile)
    (now t : Nat) (hnodup : (st.receivingFiles.map Prod.fst).Nodup)
    (h : assocGet st.receivingFiles id = some fd) (h0 : fd.lastUpdate ≠ 0)
    (ht : now - fd.lastUpdate > TRANSFER_TIMEOUT) :
    assocGet (checkTransferTimeout now st).receivingFiles id = none ∧
      (∀ i d, receiveFileChunk t (checkTransferTimeout now st) id i d =
        (checkTransferTimeout now st, [])) ∧
      receiveFileComplete (checkTransferTimeout now st) id =
        (checkTransferTimeout now st, []) := by
  have hnone : assocGet (checkTransferTimeout now st).receivingFiles id = none := by
    apply assocGet_filter_out st.receivingFiles id fd (timedOut now) hnodup h
    simp [timedOut, h0, ht]
  refine ⟨hnone, ?_, ?_⟩
  · intro i d
    simp only [receiveFileChunk, hnone]
  · simp only [receiveFileComplete, hnone]

/-- C5 witness: the transfer created at time 1 is swept at time 40000 and
later messages for it are no-ops. -/
theorem c5_witness :
    assocGet (checkTransferTimeout 40000 stMeta).receivingFiles "x" = none ∧
      (∀ i d, receiveFileChunk 40001 (checkTransferTimeout 40000 stMeta) "x" i d =
        (checkTransferTimeout 40000 stMeta, [])) ∧
      receiveFileComplete (checkTransferTimeout 40000 stMeta) "x" =
        (checkTransferTimeout 40000 stMeta, []) :=
  c5_transfer_timeout stMeta "x"
    { name := "a", size := 10, fileType := "t", totalChunks := 2
      chunks := JSArray.mkEmpty 2, receivedSize := 0, lastUpdate := 1 }
    40000 40001 (by decide) (by decide) (by decide) (by decide)

/-- C6: the liveness check tears the session down exactly when the heartbeat
silence window is exceeded AND the channel reports not-open; an open channel
is never torn down by heartbeat silence alone; a fired teardown is not
repeated; and every inbound message of any type refreshes the liveness
timestamp. -/
theorem c6_heartbeat (st : AppState) (now now2 : Nat) :
    ((heartbeatCheck now st).teardownCount = st.teardownCount + 1 ↔
        now - st.lastHeartbeat > HEARTBEAT_TIMEOUT ∧ st.connection = some false) ∧
      (st.connection = some true → heartbeatCheck now st = st) ∧
      (now - st.lastHeartbeat > HEARTBEAT_TIMEOUT → st.connection = some false →
        heartbeatCheck now st = resetConnection st ∧
          heartbeatCheck now2 (heartbeatCheck now st) = heartbeatCheck now st) ∧
      (∀ m, (handleData now st m).1.lastHeartbeat = now) := by
  refine ⟨?_, ?_, ?_, ?_⟩
  · by_cases hT : now - st.lastHeartbeat > HEARTBEAT_TIMEOUT
    · rcases hconn : st.connection with _ | b
      · simp [heartbeatCheck, hT, hconn]
      · cases b
        · simp [heartbeatCheck, hT, hconn, resetConnection]
        · simp [heartbeatCheck, hT, hconn]
    · simp [heartbeatCheck, hT]
  · intro hc
    simp [heartbeatCheck, hc]
  · intro hT hconn
    have h1 : heartbeatCheck now st = resetConnection st := by
      simp [heartbeatCheck, hT, hconn]
    refine ⟨h1, ?_⟩
    rw [h1]
    simp [heartbeatCheck, resetConnection]
  · intro m
    cases m with
    | heartbeat ts => rfl
    | text c ts => rfl
    | unknown => rfl
    | fileMeta id n s ft tc => rfl
    | fileChunk id i d =>
        simp only [handleData, receiveFileChunk]
        cases hg : assocGet ({ st with lastHeartbeat := now } : AppState).receivingFiles id with
        | none => rfl
        | some fd => rfl
    | fileComplete id =>
        simp only [handleData, receiveFileComplete]
        cases hg : assocGet ({ st with lastHeartbeat := now } : AppState).receivingFiles id with
        | none => rfl
        | some fd => rfl

/-- C6 witness: with a closed channel and 20000ms of silence against a
15000ms timeout, the check fires a teardown. -/
theorem c6_witness :
    (heartbeatCheck 20000
        { connection := some false, lastHeartbeat := 0, receivingFiles := [],
          teardownCount := 0 }).teardownCount =
      ({ connection := some false, lastHeartbeat := 0, receivingFiles := [],
          teardownCount := 0 } : AppState).teardownCount + 1 :=
  (c6_heartbeat
    { connection := some false, lastHeartbeat := 0, receivingFiles := [],
      teardownCount := 0 } 20000 0).1.mpr ⟨by decide, rfl⟩

/-- C7: `sendFile` emits one file-meta, then the chunks in strictly
increasing index order `0 .. totalChunks-1` with every chunk of exactly
`CHUNK_SIZE` bytes except a possibly shorter final one, then one
file-complete; a 150000-byte artifact yields 3 chunks of 65536, 65536 and
18928 bytes. -/
theorem c7_sendFile_structure (id name ft : String) (bytes : List Nat) :
    sendFileMsgs id name ft bytes =
        [Msg.fileMeta id name bytes.length ft (numChunks bytes.length CHUNK_SIZE)]
          ++ (List.range (numChunks bytes.length CHUNK_SIZE)).map
              (fun i => Msg.fileChunk id i (chunkData CHUNK_SIZE bytes i))
          ++ [Msg.fileComplete id] ∧
      (∀ i, i < numChunks bytes.length CHUNK_SIZE →
        (chunkData CHUNK_SIZE bytes i).length =
          min CHUNK_SIZE (bytes.length - i * CHUNK_SIZE)) ∧
      (∀ i, i + 1 < numChunks bytes.length CHUNK_SIZE →
        (chunkData CHUNK_SIZE bytes i).length = CHUNK_SIZE) ∧
      (bytes.length = 150000 →
        numChunks bytes.length CHUNK_SIZE = 3 ∧
          (List.range (numChunks bytes.length CHUNK_SIZE)).map
              (fun i => (chunkData CHUNK_SIZE bytes i).length) =
            [65536, 65536, 18928]) := by
  refine ⟨rfl, fun i _ => chunkData_length CHUNK_SIZE bytes i, ?_, ?_⟩
  · intro i hi
    rw [chunkData_length]
    have hlt : (i + 1) * CHUNK_SIZE < bytes.length :=
      mul_lt_of_lt_numChunks bytes.length CHUNK_SIZE (i + 1) (by norm_num [CHUNK_SIZE]) hi
    have hmul : (i + 1) * CHUNK_SIZE = i * CHUNK_SIZE + CHUNK_SIZE := by ring
    omega
  · intro hlen
    have hn : numChunks bytes.length CHUNK_SIZE = 3 := by
      rw [hlen]
      norm_num [numChunks, CHUNK_SIZE]
    refine ⟨hn, ?_⟩
    rw [hn]
    have e0 : (chunkData CHUNK_SIZE bytes 0).length = 65536 := by
      rw [chunkData_length, hlen]
      norm_num [CHUNK_SIZE]
    have e1 : (chunkData CHUNK_SIZE bytes 1).length = 65536 := by
      rw [chunkData_length, hlen]
      norm_num [CHUNK_SIZE]
    have e2 : (chunkData CHUNK_SIZE bytes 2).length = 18928 := by
      rw [chunkData_length, hlen]
      norm_num [CHUNK_SIZE]
    simp [List.range_succ, e0, e1, e2]

/-- C7 witness: the scenario instantiated at a concrete 150000-byte
artifact. -/
theorem c7_witness :
    numChunks (List.replicate 150000 (0 : Nat)).length CHUNK_SIZE = 3 ∧
      (List.range (numChunks (List.replicate 150000 (0 : Nat)).length CHUNK_SIZE)).map
          (fun i => (chunkData CHUNK_SIZE (List.replicate 150000 (0 : Nat)) i).length) =
        [65536, 65536, 18928] :=
  (c7_sendFile_structure "f" "a" "t" (List.replicate 150000 0)).2.2.2
    (List.length_replicate 150000 0)

/-- C8: invoking the send-file command with no open channel is rejected, and
neither a message (in particular no file-meta) nor any outbound transfer
entry is produced. -/
theorem c8_handleFiles_not_connected (conn : Option Bool) (files : List FileDesc)
    (h : conn ≠ some true) :
    handleFiles conn files = (FilesSendResult.notConnected, [], []) := by
  simp [handleFiles, h]

/-- C8 witness: a null connection rejects a file send with no output. -/
theorem c8_witness :
    handleFiles none [{ fileId := "f", name := "a", fileType := "t", bytes := [1, 2] }] =
      (FilesSendResult.notConnected, [], []) :=
  c8_handleFiles_not_connected none _ (by decide)

/-- C9: send-text with empty or whitespace-only content is rejected with the
empty-content error and nothing is sent; non-empty content over an open
channel sends exactly one text message carrying the (trimmed) content and
the timestamp. -/
theorem c9_sendText (conn : Option Bool) (input : String) (now : Nat) :
    (jsTrim input = "" → sendText conn input now = (TextSendResult.emptyContent, [])) ∧
      (jsTrim input ≠ "" → conn = some true →
        sendText conn input now = (TextSendResult.sent, [Msg.text (jsTrim input) now])) := by
  constructor
  · intro h
    simp [sendText, h]
  · intro h hc
    simp [sendText, h, hc]

/-- C9 witness: whitespace-only input is rejected; "hi" padded with blanks is
sent once, trimmed, with its timestamp. -/
theorem c9_witness :
    sendText (some true) "   " 5 = (TextSendResult.emptyContent, []) ∧
      sendText (some true) " hi " 7 =
        (TextSendResult.sent, [Msg.text (jsTrim " hi ") 7]) :=
  ⟨(c9_sendText (some true) "   " 5).1 (by decide),
    (c9_sendText (some true) " hi " 7).2 (by decide) rfl⟩

theorem concatAll_mem_split (L : List (List Nat)) (x : List Nat) (h : x ∈ L) :
    ∃ l r, concatAll L = l ++ x ++ r := by
  induction L with
  | nil => simp at h
  | cons y rest ih =>
      rcases List.mem_cons.mp h with hy | hr
      · subst hy
        exact ⟨[], concatAll rest, by simp [concatAll]⟩
      · obtain ⟨l, r, hlr⟩ := ih hr
        exact ⟨y ++ l, r, by simp [concatAll, hlr]⟩

/-- C2 counterexample: the completion of a transfer with an unset slot does
NOT fail — the artifact is assembled and delivered anyway (slot 1, unset,
contributes the bytes of the text "undefined"), and the transfer is
discarded as on success. -/
theorem c2_counterexample :
    fdIncomplete.chunks.get 1 = none ∧ fdIncomplete.totalChunks = 2 ∧
      (receiveFileComplete stIncomplete "x").2 =
        [Ev.delivered "x" ([1, 2, 3, 4, 5] ++ undefinedBytes) "a" "t"] ∧
      assocGet (receiveFileComplete stIncomplete "x").1.receivingFiles "x" =
        none := by
  decide

/-- C2 (amended): completion processing performs no unset-slot check: with
any slot below the declared chunk count unset, assembly still succeeds and
delivers exactly one artifact — which contains the UTF-8 bytes of
"undefined" where the slot was empty — and the transfer is removed. -/
theorem c2_no_incomplete_check (st : AppState) (id : String)
    (fd : InboundFile) (i : Nat) (h : assocGet st.receivingFiles id = some fd)
    (hlen : fd.totalChunks ≤ fd.chunks.len) (hi : i < fd.totalChunks)
    (hunset : fd.chunks.get i = none) :
    (receiveFileComplete st id).2 =
        [Ev.delivered id fd.chunks.blobBytes fd.name fd.fileType] ∧
      assocGet (receiveFileComplete st id).1.receivingFiles id = none ∧
      ∃ l r, fd.chunks.blobBytes = l ++ undefinedBytes ++ r := by
  refine ⟨by simp [receiveFileComplete, h], ?_, ?_⟩
  · simp only [receiveFileComplete, h]
    exact assocGet_erase_self _ _
  · have hmem : undefinedBytes ∈ (List.range fd.chunks.len).map
        (fun j => (fd.chunks.get j).getD undefinedBytes) := by
      refine List.mem_map.mpr ⟨i, List.mem_range.mpr (lt_of_lt_of_le hi hlen), ?_⟩
      rw [hunset]
      rfl
    exact concatAll_mem_split _ _ hmem

/-- C2 (amended) witness: the concrete incomplete transfer above. -/
theorem c2_witness :
    (receiveFileComplete stIncomplete "x").2 =
        [Ev.delivered "x" fdIncomplete.chunks.blobBytes fdIncomplete.name
          fdIncomplete.fileType] ∧
      assocGet (receiveFileComplete stIncomplete "x").1.receivingFiles "x" =
        none ∧
      ∃ l r, fdIncomplete.chunks.blobBytes = l ++ undefinedBytes ++ r :=
  c2_no_incomplete_check stIncomplete "x" fdIncomplete 1 (by decide)
    (by decide) (by decide) (by decide)

/-- C3 counterexample: delivering the same chunk (index 0, five bytes)
twice leaves the transfer with `receivedSize = 10`, not the `5` that a
single arrival of each valid index would produce — the duplicate is NOT
ignored idempotently in the observable state. -/
theorem c3_counterexample :
    (assocGet ((receiveFileChunk 3 (receiveFileChunk 2 stMeta "x" 0 d5).1
          "x" 0 d5).1).receivingFiles "x").map (fun g => g.receivedSize) ≠
      (assocGet ((receiveFileChunk 2 stMeta "x" 0 d5).1).receivingFiles
          "x").map (fun g => g.receivedSize) := by
  decide

/-- C3 (amended): a duplicate chunk overwrites its slot idempotently (the
slot holds the chunk data after one or two deliveries alike), but every
arriving chunk — duplicate or not — adds its byte length to the cumulative
received-byte counter, and an arriving index `i` grows the slot array to
length `max len (i+1)` (so an out-of-range index enlarges it past the
declared total chunk count instead of being ignored). -/
theorem c3_duplicate_counting (st : AppState) (id : String)
    (fd : InboundFile) (i : Nat) (d : List Nat) (t1 t2 : Nat)
    (h : assocGet st.receivingFiles id = some fd) :
    (assocGet (receiveFileChunk t1 st id i d).1.receivingFiles id).map
        (fun g => g.chunks.get i) = some (some d) ∧
      (assocGet (receiveFileChunk t2 (receiveFileChunk t1 st id i d).1
            id i d).1.receivingFiles id).map
        (fun g => g.chunks.get i) = some (some d) ∧
      (assocGet (receiveFileChunk t1 st id i d).1.receivingFiles id).map
        (fun g => g.receivedSize) = some (fd.receivedSize + d.length) ∧
      (assocGet (receiveFileChunk t2 (receiveFileChunk t1 st id i d).1
            id i d).1.receivingFiles id).map
        (fun g => g.receivedSize) =
          some (fd.receivedSize + d.length + d.length) ∧
      (assocGet (receiveFileChunk t1 st id i d).1.receivingFiles id).map
        (fun g => g.chunks.len) = some (max fd.chunks.len (i + 1)) ∧
      (assocGet (receiveFileChunk t2 (receiveFileChunk t1 st id i d).1
            id i d).1.receivingFiles id).map
        (fun g => g.chunks.len) = some (max fd.chunks.len (i + 1)) := by
  have hget1 : assocGet (receiveFileChunk t1 st id i d).1.receivingFiles id =
      some (chunkApply t1 d fd i) := by
    rw [receiveFileChunk_present t1 st id i d fd h]
    exact assocGet_set_self _ _ _
  have hget2 : assocGet (receiveFileChunk t2 (receiveFileChunk t1 st id i d).1
      id i d).1.receivingFiles id =
        some (chunkApply t2 d (chunkApply t1 d fd i) i) := by
    rw [receiveFileChunk_present t2 (receiveFileChunk t1 st id i d).1 id i d
      (chunkApply t1 d fd i) hget1]
    exact assocGet_set_self _ _ _
  rw [hget1, hget2]
  refine ⟨?_, ?_, rfl, rfl, rfl, ?_⟩
  · exact congrArg some (jsGet_set_self _ i d)
  · exact congrArg some (jsGet_set_self _ i d)
  · show some ((chunkApply t2 d (chunkApply t1 d fd i) i).chunks.len) =
      some (max fd.chunks.len (i + 1))
    have hx : (chunkApply t2 d (chunkApply t1 d fd i) i).chunks.len =
        max (max fd.chunks.len (i + 1)) (i + 1) := rfl
    rw [hx]
    congr 1
    omega

/-- C3 (amended) witness: an out-of-range index 5 (declared total 2) grows
the slot array to length 6, and a duplicate double-counts bytes. -/
theorem c3_witness :
    (assocGet (receiveFileChunk 2 stMeta "x" 5 d5).1.receivingFiles "x").map
        (fun g => g.chunks.len) = some (max fdMeta.chunks.len (5 + 1)) ∧
      (assocGet (receiveFileChunk 3 (receiveFileChunk 2 stMeta "x" 5 d5).1
            "x" 5 d5).1.receivingFiles "x").map
        (fun g => g.receivedSize) =
          some (fdMeta.receivedSize + d5.length + d5.length) :=
  ⟨(c3_duplicate_counting stMeta "x" fdMeta 5 d5 2 3 (by decide)).2.2.2.2.1,
    (c3_duplicate_counting stMeta "x" fdMeta 5 d5 2 3 (by decide)).2.2.2.1⟩

/-- C10: once a file-complete for an identifier is processed (one delivery),
the entry is deleted, so later file-chunk and file-complete messages with
the same identifier are no-ops and nothing further is delivered for it over
any subsequent run without a fresh file-meta for it. -/
theorem c10_complete_once (st : AppState) (id : String) (fd : InboundFile)
    (h : assocGet st.receivingFiles id = some fd) :
    (receiveFileComplete st id).2 =
        [Ev.delivered id fd.chunks.blobBytes fd.name fd.fileType] ∧
      assocGet (receiveFileComplete st id).1.receivingFiles id = none ∧
      (∀ t i d, receiveFileChunk t (receiveFileComplete st id).1 id i d =
        ((receiveFileComplete st id).1, [])) ∧
      receiveFileComplete (receiveFileComplete st id).1 id =
        ((receiveFileComplete st id).1, []) ∧
      (∀ msgs : List (Nat × Msg), (∀ p ∈ msgs, isMetaFor id p.2 = false) →
        deliveredFor id (runMsgs (receiveFileComplete st id).1 msgs).2 = []) := by
  have hevs : (receiveFileComplete st id).2 =
      [Ev.delivered id fd.chunks.blobBytes fd.name fd.fileType] := by
    simp [receiveFileComplete, h]
  have hnone : assocGet (receiveFileComplete st id).1.receivingFiles id = none := by
    simp only [receiveFileComplete, h]
    exact assocGet_erase_self _ _
  refine ⟨hevs, hnone, ?_, ?_, ?_⟩
  · intro t i d
    exact receiveFileChunk_absent t _ id i d hnone
  · exact receiveFileComplete_absent _ id hnone
  · intro msgs hm
    exact (run_absent id msgs _ hnone hm).2.2

theorem runMsgs_cons (st : AppState) (t : Nat) (m : Msg)
    (l : List (Nat × Msg)) :
    runMsgs st ((t, m) :: l) =
      ((runMsgs (handleData t st m).1 l).1,
        (handleData t st m).2 ++ (runMsgs (handleData t st m).1 l).2) := rfl

/-- A freshly created slot array that received every chunk of the honest
split reassembles to the original bytes. -/
theorem blobBytes_filled (cs : Nat) (hcs : 1 ≤ cs) (bytes : List Nat)
    (now : Nat) (fd0 : InboundFile)
    (h0 : fd0.chunks = JSArray.mkEmpty (numChunks bytes.length cs)) :
    (applyChunks now (chunkData cs bytes) fd0
        (List.range (numChunks bytes.length cs))).chunks.blobBytes = bytes := by
  have hchunks : (applyChunks now (chunkData cs bytes) fd0
      (List.range (numChunks bytes.length cs))).chunks =
        (List.range (numChunks bytes.length cs)).foldl
          (fun c i => c.set i (chunkData cs bytes i))
          (JSArray.mkEmpty (numChunks bytes.length cs)) := by
    rw [applyChunks_chunks, h0]
  have hlen : ((List.range (numChunks bytes.length cs)).foldl
      (fun c i => c.set i (chunkData cs bytes i))
      (JSArray.mkEmpty (numChunks bytes.length cs))).len =
        numChunks bytes.length cs := by
    apply foldl_set_len
    intro i hi
    simpa [JSArray.mkEmpty] using List.mem_range.mp hi
  rw [hchunks]
  unfold JSArray.blobBytes
  rw [hlen]
  have hmapeq : (List.range (numChunks bytes.length cs)).map
      (fun j => (((List.range (numChunks bytes.length cs)).foldl
          (fun c i => c.set i (chunkData cs bytes i))
          (JSArray.mkEmpty (numChunks bytes.length cs))).get j).getD
        undefinedBytes) =
        (List.range (numChunks bytes.length cs)).map (chunkData cs bytes) := by
    apply List.map_congr_left
    intro j hj
    rw [foldl_set_get]
    simp [hj]
  rw [hmapeq]
  exact concat_chunks cs hcs bytes

/-- Processing the honest chunk run and the completion on a state holding a
fresh entry delivers exactly the original bytes and removes the entry. -/
theorem run_send_tail (cs : Nat) (hcs : 1 ≤ cs) (id : String)
    (bytes : List Nat) (now : Nat) (st1 : AppState) (fd0 : InboundFile)
    (hget0 : assocGet st1.receivingFiles id = some fd0)
    (hchunks0 : fd0.chunks = JSArray.mkEmpty (numChunks bytes.length cs)) :
    deliveredFor id (runMsgs st1
        ((List.range (numChunks bytes.length cs)).map
            (fun i => (now, Msg.fileChunk id i (chunkData cs bytes i))) ++
          [(now, Msg.fileComplete id)])).2 =
      [Ev.delivered id bytes fd0.name fd0.fileType] ∧
    assocGet (runMsgs st1
        ((List.range (numChunks bytes.length cs)).map
            (fun i => (now, Msg.fileChunk id i (chunkData cs bytes i))) ++
          [(now, Msg.fileComplete id)])).1.receivingFiles id = none := by
  rw [runMsgs_append]
  obtain ⟨hgetF, hevsF⟩ := run_chunks id now (chunkData cs bytes)
    (List.range (numChunks bytes.length cs)) st1 fd0 hget0
  have hgetF2 : assocGet ({ (runMsgs st1
      ((List.range (numChunks bytes.length cs)).map
        (fun i => (now, Msg.fileChunk id i (chunkData cs bytes i))))).1 with
      lastHeartbeat := now } : AppState).receivingFiles id =
        some (applyChunks now (chunkData cs bytes) fd0
          (List.range (numChunks bytes.length cs))) := hgetF
  have hcomp := receiveFileComplete_present _ id _ hgetF2
  have hsing : runMsgs (runMsgs st1
      ((List.range (numChunks bytes.length cs)).map
        (fun i => (now, Msg.fileChunk id i (chunkData cs bytes i))))).1
      [(now, Msg.fileComplete id)] =
      ((receiveFileComplete { (runMsgs st1
          ((List.range (numChunks bytes.length cs)).map
            (fun i => (now, Msg.fileChunk id i (chunkData cs bytes i))))).1 with
          lastHeartbeat := now } id).1,
        (receiveFileComplete { (runMsgs st1
          ((List.range (numChunks bytes.length cs)).map
            (fun i => (now, Msg.fileChunk id i (chunkData cs bytes i))))).1 with
          lastHeartbeat := now } id).2 ++ []) := rfl
  rw [hsing, hcomp]
  have hfl := applyChunks_fields now (chunkData cs bytes)
    (List.range (numChunks bytes.length cs)) fd0
  have hblob := blobBytes_filled cs hcs bytes now fd0 hchunks0
  constructor
  · rw [deliveredFor_append, hevsF, deliveredFor_chunkRunEvs]
    simp [deliveredFor, hblob, hfl.1, hfl.2.2.1]
  · exact assocGet_erase_self _ _

/-- C1: the receive path, fed the exact message sequence the send path emits
for an artifact (any chunk size ≥ 1, any size including 0), delivers exactly
the original bytes and then discards the transfer. -/
theorem c1_roundtrip (cs : Nat) (hcs : 1 ≤ cs) (id name ft : String)
    (bytes : List Nat) (now : Nat) (st : AppState) :
    deliveredFor id (runMsgs st ((sendFileMsgsWith cs id name ft bytes).map
        (fun m => (now, m)))).2 = [Ev.delivered id bytes name ft] ∧
      assocGet (runMsgs st ((sendFileMsgsWith cs id name ft bytes).map
          (fun m => (now, m)))).1.receivingFiles id = none := by
  have hmsgs : (sendFileMsgsWith cs id name ft bytes).map (fun m => (now, m)) =
      (now, Msg.fileMeta id name bytes.length ft (numChunks bytes.length cs)) ::
        ((List.range (numChunks bytes.length cs)).map
            (fun i => (now, Msg.fileChunk id i (chunkData cs bytes i))) ++
          [(now, Msg.fileComplete id)]) := by
    simp [sendFileMsgsWith, List.map_map, Function.comp]
  rw [hmsgs, runMsgs_cons]
  have hm2 : (handleData now st
      (Msg.fileMeta id name bytes.length ft (numChunks bytes.length cs))).2 =
        ([] : List Ev) := rfl
  rw [hm2]
  have htail := run_send_tail cs hcs id bytes now
    (handleData now st
      (Msg.fileMeta id name bytes.length ft (numChunks bytes.length cs))).1
    ⟨name, bytes.length, ft, numChunks bytes.length cs,
      JSArray.mkEmpty (numChunks bytes.length cs), 0, now⟩
    (assocGet_set_self _ _ _) rfl
  constructor
  · rw [List.nil_append]
    exact htail.1
  · exact htail.2

/-- C1 witness: a 3-byte artifact with chunk size 2 round-trips through the
full send and receive paths. -/
theorem c1_witness :
    deliveredFor "f" (runMsgs st0 ((sendFileMsgsWith 2 "f" "a" "t" [7, 8, 9]).map
        (fun m => (0, m)))).2 = [Ev.delivered "f" [7, 8, 9] "a" "t"] ∧
      assocGet (runMsgs st0 ((sendFileMsgsWith 2 "f" "a" "t" [7, 8, 9]).map
          (fun m => (0, m)))).1.receivingFiles "f" = none :=
  c1_roundtrip 2 (by norm_num) "f" "a" "t" [7, 8, 9] 0 st0

theorem progressFor_map_progress (id : String) (l : List Nat) (v : Nat → ℚ) :
    progressFor id (l.map (fun i => Ev.progress id (v i))) = l.map v := by
  induction l with
  | nil => rfl
  | cons a rest ih =>
      simp only [List.map_cons, progressFor, List.filterMap_cons]
      simp only [progressFor] at ih
      simp [ih]

theorem progressFor_complete_run (j id : String) (now : Nat) (stC : AppState) :
    progressFor j (runMsgs stC [(now, Msg.fileComplete id)]).2 = [] := by
  rw [runMsgs_cons]
  have hh : handleData now stC (Msg.fileComplete id) =
      receiveFileComplete { stC with lastHeartbeat := now } id := rfl
  rw [hh]
  cases hg : assocGet ({ stC with lastHeartbeat := now } : AppState).receivingFiles id with
  | none =>
      rw [receiveFileComplete_absent _ _ hg]
      rfl
  | some fd =>
      rw [receiveFileComplete_present _ _ _ hg]
      simp [progressFor, runMsgs]

theorem pct_eq_100_iff (a b : Nat) (hb : 0 < b) :
    ((a : ℚ) / (b : ℚ)) * 100 = 100 ↔ a = b := by
  have hbne : (b : ℚ) ≠ 0 := Nat.cast_ne_zero.mpr (by omega)
  constructor
  · intro h
    have h2 : (a : ℚ) / (b : ℚ) * 100 = 1 * 100 := by rw [h]; norm_num
    have h1 : (a : ℚ) / (b : ℚ) = 1 :=
      mul_right_cancel₀ (by norm_num) h2
    have h3 : (a : ℚ) = (b : ℚ) := (div_eq_one_iff_eq hbne).mp h1
    exact Nat.cast_inj.mp h3
  · intro h
    subst h
    rw [div_self hbne]
    norm_num

/-- C4 counterexample: on a transfer of declared size 10 in 2 chunks, the
same 5-byte chunk (index 0) delivered twice drives the exposed progress to
exactly 100% while slot 1 is still unset, no completion has been processed,
and the transfer is still active — progress reaches 100% before
completion. -/
theorem c4_counterexample :
    progressFor "x" (runMsgs stMeta
        [(2, Msg.fileChunk "x" 0 d5), (2, Msg.fileChunk "x" 0 d5)]).2 =
      [50, 100] ∧
      (assocGet (runMsgs stMeta
          [(2, Msg.fileChunk "x" 0 d5), (2, Msg.fileChunk "x" 0 d5)]).1.receivingFiles
        "x").map (fun g => g.chunks.get 1) = some none ∧
      deliveredFor "x" (runMsgs stMeta
        [(2, Msg.fileChunk "x" 0 d5), (2, Msg.fileChunk "x" 0 d5)]).2 = [] := by
  obtain ⟨hget, hevs⟩ := run_chunks "x" 2 (fun _ => d5) [0, 0] stMeta fdMeta
    (by decide)
  simp only [List.map_cons, List.map_nil] at hget hevs
  simp only [chunkRunEvs] at hevs
  refine ⟨?_, ?_, ?_⟩
  · rw [hevs]
    have hr1 : ratio (chunkApply 2 d5 fdMeta 0) = 50 := by
      norm_num [ratio, chunkApply, fdMeta, d5]
    have hr2 : ratio (chunkApply 2 d5 (chunkApply 2 d5 fdMeta 0) 0) = 100 := by
      norm_num [ratio, chunkApply, fdMeta, d5]
    rw [hr1, hr2]
    simp [progressFor]
  · rw [hget]
    decide
  · rw [hevs]
    have hd1 : deliveredFor "x" [Ev.progress "x" (ratio (chunkApply 2 d5 fdMeta 0)),
        Ev.progress "x" (ratio (chunkApply 2 d5 (chunkApply 2 d5 fdMeta 0) 0))] = [] := by
      simp [deliveredFor]
    exact hd1

/-- C4 (amended): per-transfer progress is monotonically non-decreasing (for
inbound transfers along any run without a fresh file-meta, and for the
outbound sequence); outbound progress equals 100% exactly at the final
chunk; along the sender's exact chunk sequence the inbound progress values
are `min((i+1)·cs, size)/size · 100`, reaching exactly 100% precisely at the
final chunk event — but duplicate deliveries can reach 100% early (see the
counterexample). -/
theorem c4_progress_monotone :
    (∀ (id : String) (msgs : List (Nat × Msg)) (st : AppState),
        (∀ p ∈ msgs, isMetaFor id p.2 = false) →
        List.Chain' (· ≤ ·) (progressFor id (runMsgs st msgs).2)) ∧
      (∀ n : Nat, List.Chain' (· ≤ ·) (outboundProgressList n) ∧
        (0 < n → ∀ i, i < n →
          ((((i + 1 : Nat) : ℚ) / (n : ℚ)) * 100 = 100 ↔ i = n - 1))) ∧
      (∀ (cs : Nat) (id name ft : String) (bytes : List Nat) (now : Nat)
          (st : AppState), 1 ≤ cs →
        progressFor id (runMsgs st ((sendFileMsgsWith cs id name ft bytes).map
            (fun m => (now, m)))).2 =
          (List.range (numChunks bytes.length cs)).map
            (fun i => ((min ((i + 1) * cs) bytes.length : Nat) : ℚ) /
              (bytes.length : ℚ) * 100) ∧
        (0 < bytes.length → ∀ i, i < numChunks bytes.length cs →
          (((min ((i + 1) * cs) bytes.length : Nat) : ℚ) /
              (bytes.length : ℚ) * 100 = 100 ↔
            i = numChunks bytes.length cs - 1))) := by
  refine ⟨?_, ?_, ?_⟩
  · intro id msgs st hmeta
    cases hg : assocGet st.receivingFiles id with
    | none =>
        rw [(run_absent id msgs st hg hmeta).2.1]
        exact List.chain'_nil
    | some fd => exact (run_mono id msgs st fd hg hmeta).tail
  · intro n
    constructor
    · unfold outboundProgressList
      rw [List.chain'_iff_pairwise]
      refine List.Pairwise.map _ ?_ (List.pairwise_lt_range n)
      intro a b hab
      have h1 : ((a + 1 : Nat) : ℚ) ≤ ((b + 1 : Nat) : ℚ) :=
        Nat.cast_le.mpr (by omega)
      have h2 := div_le_div_of_nonneg_right h1 (Nat.cast_nonneg n)
      exact mul_le_mul_of_nonneg_right h2 (by norm_num)
    · intro hn i hi
      rw [pct_eq_100_iff (i + 1) n hn]
      omega
  · intro cs id name ft bytes now st hcs
    have hmsgs : (sendFileMsgsWith cs id name ft bytes).map (fun m => (now, m)) =
        (now, Msg.fileMeta id name bytes.length ft (numChunks bytes.length cs)) ::
          ((List.range (numChunks bytes.length cs)).map
              (fun i => (now, Msg.fileChunk id i (chunkData cs bytes i))) ++
            [(now, Msg.fileComplete id)]) := by
      simp [sendFileMsgsWith, List.map_map, Function.comp]
    constructor
    · rw [hmsgs, runMsgs_cons]
      have hm2 : (handleData now st
          (Msg.fileMeta id name bytes.length ft (numChunks bytes.length cs))).2 =
            ([] : List Ev) := rfl
      rw [hm2, List.nil_append, runMsgs_append]
      obtain ⟨hgetF, hevsF⟩ := run_chunks id now (chunkData cs bytes)
        (List.range (numChunks bytes.length cs))
        (handleData now st
          (Msg.fileMeta id name bytes.length ft (numChunks bytes.length cs))).1
        ⟨name, bytes.length, ft, numChunks bytes.length cs,
          JSArray.mkEmpty (numChunks bytes.length cs), 0, now⟩
        (assocGet_set_self _ _ _)
      rw [progressFor_append, hevsF]
      rw [progressFor_complete_run]
      rw [List.append_nil]
      rw [List.range_eq_range']
      rw [chunkRunEvs_range' cs bytes id now (numChunks bytes.length cs) 0
        ⟨name, bytes.length, ft, numChunks bytes.length cs,
          JSArray.mkEmpty (numChunks bytes.length cs), 0, now⟩
        rfl (by simp)]
      rw [progressFor_map_progress]
    · intro hL i hi
      rw [pct_eq_100_iff (min ((i + 1) * cs) bytes.length) bytes.length hL]
      constructor
      · intro hmin
        by_contra hne
        have hi1 : i + 1 < numChunks bytes.length cs := by omega
        have hlt := mul_lt_of_lt_numChunks bytes.length cs (i + 1) hcs hi1
        have hminl : min ((i + 1) * cs) bytes.length = (i + 1) * cs :=
          Nat.min_eq_left (Nat.le_of_lt hlt)
        omega
      · intro hieq
        have h1 : i + 1 = numChunks bytes.length cs := by omega
        have h2 : bytes.length ≤ (i + 1) * cs := by
          rw [h1]
          exact le_numChunks_mul bytes.length cs hcs
        exact Nat.min_eq_right h2

/-- C4 (amended) witness: a concrete out-of-order, duplicate-bearing run has
non-decreasing progress for "x". -/
theorem c4_witness :
    List.Chain' (· ≤ ·) (progressFor "x" (runMsgs stMeta
        [(2, Msg.fileChunk "x" 1 d5), (3, Msg.fileChunk "x" 1 d5),
          (4, Msg.fileChunk "x" 0 d5)]).2) :=
  c4_progress_monotone.1 "x"
    [(2, Msg.fileChunk "x" 1 d5), (3, Msg.fileChunk "x" 1 d5),
      (4, Msg.fileChunk "x" 0 d5)] stMeta (by decide)

/-- C10 witness: after completing "x", a late chunk and a late completion
deliver nothing more for "x". -/
theorem c10_witness :
    assocGet (receiveFileComplete stMeta "x").1.receivingFiles "x" = none ∧
      deliveredFor "x" (runMsgs (receiveFileComplete stMeta "x").1
        [(5, Msg.fileChunk "x" 0 d5), (6, Msg.fileComplete "x")]).2 = [] :=
  ⟨(c10_complete_once stMeta "x" fdMeta (by decide)).2.1,
    (c10_complete_once stMeta "x" fdMeta (by decide)).2.2.2.2
      [(5, Msg.fileChunk "x" 0 d5), (6, Msg.fileComplete "x")] (by decide)⟩

end P2P
